import Mathlib

/-!
Verification of the three CSV batch utilities of `places_autocomplete_rs`:
the splitter (`split_csv.py`), the deduplicator (`remove_csv_dup.py`) and
the searcher (`search_files.py`).  Each script is shallowly embedded as a
pure function on lists of parsed CSV rows; file contents are lists of rows,
a directory is a list of (file name, content) pairs, and failure
(a raised exception in Python) is `Option.none`.
-/

/-- A parsed CSV row: an ordered sequence of string fields. -/
abbrev Row : Type := List String

/-! ## Splitter (`split_csv.py`, `split_csv`)

The loop state of `split_csv`: the closed output files so far (in
file-number order), the contents of the currently open output file
(`none` when no file is open, mirroring `current_file = None`), and
`current_line_count`. -/

structure SplitState where
  files : List (List Row)
  current : Option (List Row)
  count : Nat
deriving Repr, DecidableEq

/-- One iteration of the `for row in reader` loop of `split_csv`:
if `current_line_count == 0`, close the current file (if any) and open a
new one containing just the headers; write the row; increment the count;
if the count reached `max_lines`, reset it to `0`. -/
def splitStep (headers : Row) (maxLines : Nat) (s : SplitState) (row : Row) : SplitState :=
  let s1 : SplitState :=
    if s.count = 0 then
      { files := s.files ++ s.current.toList, current := some [headers], count := s.count }
    else s
  let s2 : SplitState :=
    { s1 with current := s1.current.map (fun f => f ++ [row]), count := s1.count + 1 }
  if maxLines ≤ s2.count then { s2 with count := 0 } else s2

/-- After the loop, `split_csv` closes the last open file if there is one. -/
def splitFinish (s : SplitState) : List (List Row) :=
  s.files ++ s.current.toList

/-- `split_csv`: the first row of the input file is the header
(`next(reader)` — raises `StopIteration`, i.e. fails, on an empty file);
the remaining rows are streamed through the rotation loop.  The result is
the sequence of output files (each a list of rows) in file-number order. -/
def split_csv (input : List Row) (maxLines : Nat) : Option (List (List Row)) :=
  match input with
  | [] => none
  | headers :: dataRows =>
      some (splitFinish (dataRows.foldl (splitStep headers maxLines) ⟨[], none, 0⟩))

/-- Chunking a list into consecutive pieces of `N` elements (the last piece
may be shorter).  Used only to state and prove what the splitter produces. -/
def chunks (N : Nat) : List Row → List (List Row)
  | [] => []
  | x :: xs => (x :: xs.take (N - 1)) :: chunks N (xs.drop (N - 1))
termination_by l => l.length
decreasing_by
  simp only [List.length_drop, List.length_cons]
  omega

/-! ## Deduplicator (`remove_csv_dup.py`, `remove_duplicates`) -/

/-- The canonical text key of a row: `','.join(row)`. -/
def dedupKey (row : Row) : String := String.intercalate "," row

/-- The `for row in reader` loop of `remove_duplicates`: `seen` models the
`unique_lines` set (only membership is used).  A row is written iff its
joined text has not been seen; its key is then recorded. -/
def removeDupLoop : List Row → List String → List Row
  | [], _ => []
  | row :: rest, seen =>
      if dedupKey row ∈ seen then removeDupLoop rest seen
      else row :: removeDupLoop rest (dedupKey row :: seen)

/-- `remove_duplicates` as a row transform: the rows written to the
temporary file, starting from an empty `unique_lines` set. -/
def remove_duplicates (rows : List Row) : List Row :=
  removeDupLoop rows []

/-! ### Filesystem effects of `remove_duplicates`

`remove_duplicates` writes its output to `file_path + ".tmp"` and then
calls `os.replace(temp_file_path, file_path)`.  We model its effect trace:
one `writeTemp` per output row, then the single `replaceOrig`.
Interrupting the run corresponds to executing a proper prefix of the trace. -/

/-- A filesystem operation performed by `remove_duplicates`. -/
inductive FsOp where
  | writeTemp (row : Row)
  | replaceOrig
deriving Repr, DecidableEq

/-- The two relevant paths: the original file and the temporary file. -/
structure Fs where
  orig : List Row
  temp : List Row
deriving Repr, DecidableEq

/-- Effect of one operation: `writeTemp` appends a row to the temporary
file; `replaceOrig` is `os.replace`, installing the temporary file's
content at the original path in one step. -/
def applyOp (fs : Fs) : FsOp → Fs
  | .writeTemp r => { fs with temp := fs.temp ++ [r] }
  | .replaceOrig => { fs with orig := fs.temp }

/-- Run a sequence of filesystem operations. -/
def runOps (fs : Fs) (ops : List FsOp) : Fs := ops.foldl applyOp fs

/-- The effect trace of `remove_duplicates`: every kept row is written to
the temporary file, strictly before the single final `os.replace`. -/
def dedupTrace (rows : List Row) : List FsOp :=
  (remove_duplicates rows).map FsOp.writeTemp ++ [FsOp.replaceOrig]

/-! ## Searcher (`search_files.py`, `search_csv_files`) -/

/-- A record: `csv.DictReader`'s header-keyed view of one data row.
The value is `none` when the row is shorter than the header
(`DictReader`'s `restval = None`). -/
abbrev Record : Type := List (String × Option String)

/-- Builds `dict(zip(fieldnames, row))` with `restval = None` padding:
field `i` of the header is keyed to the `i`-th field of the row, or to
`none` when the row has fewer than `i + 1` fields. -/
def mkRecordAux (row : List String) : Nat → List String → Record
  | _, [] => []
  | i, h :: hs => (h, row.get? i) :: mkRecordAux row (i + 1) hs

/-- The record `csv.DictReader` yields for one data row. -/
def mkRecord (headers : List String) (row : List String) : Record :=
  mkRecordAux row 0 headers

/-- Dictionary lookup, `row[key]`: the value at the LAST occurrence of the
key (later pairs of `dict(zip(...))` overwrite earlier ones); `none` is a
`KeyError`. -/
def lookupLast : Record → String → Option (Option String)
  | [], _ => none
  | (k, v) :: rest, key =>
      match lookupLast rest key with
      | some w => some w
      | none => if k = key then some v else none

/-- The inner `for row in reader` loop of `search_csv_files` on one file's
data rows: `csv.DictReader.__next__` first skips blank rows
(`while row == []`), then each remaining row's record is tested with
`row['postal_code'] == postal_code`; a missing key raises `KeyError`
(`none`). -/
def searchFileRows (target : String) (headers : List String) :
    List Row → Option (List Record)
  | [] => some []
  | row :: rest =>
      if row = [] then searchFileRows target headers rest
      else
        match lookupLast (mkRecord headers row) "postal_code" with
        | none => none
        | some v =>
            match searchFileRows target headers rest with
            | none => none
            | some rs =>
                some (if v = some target then mkRecord headers row :: rs else rs)

/-- Searching one file: `csv.DictReader` takes the first row as the header
and yields one record per remaining row; on a file with no rows it yields
nothing. -/
def searchFile (target : String) : List Row → Option (List Record)
  | [] => some []
  | headers :: dataRows => searchFileRows target headers dataRows

/-- Python's `filename.endswith('.csv')`, computed on the character
sequences of the strings. -/
def strEndsWith (name suffix : String) : Bool :=
  suffix.data.isSuffixOf name.data

/-- `search_csv_files`: walk the directory listing in order, process every
file whose name ends in `.csv`, and concatenate the matches.  A `KeyError`
anywhere aborts the whole search (`none`). -/
def search_csv_files : List (String × List Row) → String → Option (List Record)
  | [], _ => some []
  | (name, content) :: rest, target =>
      if strEndsWith name ".csv" then
        match searchFile target content with
        | none => none
        | some rs =>
            match search_csv_files rest target with
            | none => none
            | some rs2 => some (rs ++ rs2)
      else search_csv_files rest target

/-! ## Spec-side definitions for refinement claims -/

/-- Spec-side (C3): the subsequence of the rows that are the first
occurrence of their canonical text key: the first row is kept, every later
row with the same key is dropped, and the rest is processed the same way. -/
def specFirstOccurrences : List Row → List Row
  | [] => []
  | r :: rs =>
      r :: specFirstOccurrences (rs.filter fun x => dedupKey x != dedupKey r)
termination_by l => l.length
decreasing_by
  simp only [List.length_cons]
  exact Nat.lt_succ_of_le (List.length_filter_le _ _)

/-- Spec-side (C5): the records of one file whose `postal_code` field
equals the target exactly, in in-file row order. -/
def matchingRecords (target : String) (content : List Row) : List Record :=
  match content with
  | [] => []
  | headers :: dataRows =>
      (dataRows.map (mkRecord headers)).filter
        fun r => lookupLast r "postal_code" == some (some target)

/-! ## Splitter lemmas -/

theorem splitStep_count_zero (hh : Row) (N : Nat) (files : List (List Row))
    (cur : Option (List Row)) (row : Row) :
    splitStep hh N ⟨files, cur, 0⟩ row =
      if N ≤ 1 then ⟨files ++ cur.toList, some [hh, row], 0⟩
      else ⟨files ++ cur.toList, some [hh, row], 1⟩ := by
  simp only [splitStep]
  split <;> simp_all

theorem splitStep_count_pos (hh : Row) (N : Nat) (files : List (List Row))
    (c : List Row) (cnt : Nat) (row : Row) (hc : cnt ≠ 0) :
    splitStep hh N ⟨files, some c, cnt⟩ row =
      if N ≤ cnt + 1 then ⟨files, some (c ++ [row]), 0⟩
      else ⟨files, some (c ++ [row]), cnt + 1⟩ := by
  simp only [splitStep, hc, if_neg]
  split <;> simp_all

theorem splitFold_fill (hh : Row) (N : Nat) (l : List Row) :
    ∀ (d : List Row) (files : List (List Row)),
      1 ≤ d.length → d.length < N → d.length + l.length ≤ N →
      l.foldl (splitStep hh N) ⟨files, some (hh :: d), d.length⟩ =
        ⟨files, some (hh :: (d ++ l)),
          if d.length + l.length = N then 0 else d.length + l.length⟩ := by
  induction l with
  | nil =>
      intro d files h1 h2 h3
      rw [List.foldl_nil, if_neg (by simp; omega)]
      simp
  | cons x xs ih =>
      intro d files h1 h2 h3
      rw [List.foldl_cons, splitStep_count_pos hh N files (hh :: d) d.length x (by omega)]
      by_cases hNe : N ≤ d.length + 1
      · have hxs : xs = [] := by
          apply List.eq_nil_of_length_eq_zero
          simp only [List.length_cons] at h3
          omega
        subst hxs
        rw [if_pos hNe, List.foldl_nil, if_pos (by simp; omega)]
        simp
      · rw [if_neg hNe]
        have hstep := ih (d ++ [x]) files (by simp) (by simp; omega)
          (by simp only [List.length_append, List.length_cons, List.length_nil] at h3 ⊢; omega)
        simp only [List.length_append, List.length_cons, List.length_nil,
          Nat.zero_add] at hstep
        rw [List.cons_append, hstep]
        simp only [List.append_assoc, List.singleton_append, List.length_cons,
          SplitState.mk.injEq, true_and]
        have : d.length + 1 + xs.length = d.length + (xs.length + 1) := by omega
        rw [this]

theorem splitFinish_rotate (hh : Row) (N : Nat) (l : List Row)
    (files : List (List Row)) (c : List Row) :
    splitFinish (l.foldl (splitStep hh N) ⟨files, some c, 0⟩) =
      splitFinish (l.foldl (splitStep hh N) ⟨files ++ [c], none, 0⟩) := by
  cases l with
  | nil => simp [splitFinish]
  | cons x xs =>
      rw [List.foldl_cons, List.foldl_cons, splitStep_count_zero, splitStep_count_zero]
      simp

theorem splitFold_chunks (hh : Row) (N : Nat) (hN : 1 ≤ N) :
    ∀ (l : List Row) (files : List (List Row)),
      splitFinish (l.foldl (splitStep hh N) ⟨files, none, 0⟩) =
        files ++ (chunks N l).map (fun c => hh :: c)
  | [], files => by simp [splitFinish, chunks]
  | x :: xs, files => by
      rw [List.foldl_cons, splitStep_count_zero]
      by_cases hN1 : N ≤ 1
      · have hNeq : N = 1 := by omega
        subst hNeq
        rw [if_pos (by omega)]
        simp only [Option.toList_none, List.append_nil]
        rw [splitFinish_rotate, splitFold_chunks hh 1 hN xs (files ++ [[hh, x]])]
        simp [chunks]
      · rw [if_neg hN1]
        simp only [Option.toList_none, List.append_nil]
        rw [show xs = xs.take (N - 1) ++ xs.drop (N - 1) from (List.take_append_drop _ _).symm,
          List.foldl_append]
        have hfill := splitFold_fill hh N (xs.take (N - 1)) [x] files (by simp)
          (by simp; omega) (by simp [List.length_take]; omega)
        simp only [List.length_cons, List.length_nil, Nat.zero_add,
          List.singleton_append] at hfill
        rw [hfill]
        by_cases hlong : N - 1 ≤ xs.length
        · have hcond : 1 + (xs.take (N - 1)).length = N := by
            simp [List.length_take]; omega
          rw [if_pos hcond, splitFinish_rotate,
            splitFold_chunks hh N hN (xs.drop (N - 1)) (files ++ [hh :: x :: xs.take (N - 1)])]
          simp [chunks]
        · have htake : xs.take (N - 1) = xs := List.take_of_length_le (by omega)
          have hdrop : xs.drop (N - 1) = [] := List.drop_eq_nil_of_le (by omega)
          rw [htake, hdrop, List.foldl_nil,
            if_neg (show ¬1 + xs.length = N by omega)]
          simp [splitFinish, chunks, htake, hdrop]
termination_by l => l.length
decreasing_by
  all_goals simp only [List.length_drop, List.length_cons]
  all_goals omega

theorem split_csv_eq_chunks (hh : Row) (data : List Row) (N : Nat) (hN : 1 ≤ N) :
    split_csv (hh :: data) N = some ((chunks N data).map (fun c => hh :: c)) := by
  have hdef : split_csv (hh :: data) N =
      some (splitFinish (data.foldl (splitStep hh N) ⟨[], none, 0⟩)) := rfl
  rw [hdef, splitFold_chunks hh N hN data []]
  simp

theorem chunks_flatten (N : Nat) :
    ∀ l : List Row, (chunks N l).flatten = l
  | [] => by simp [chunks]
  | x :: xs => by
      rw [chunks, List.flatten_cons, chunks_flatten N (xs.drop (N - 1))]
      simp [List.take_append_drop]
termination_by l => l.length
decreasing_by
  simp only [List.length_drop, List.length_cons]
  omega

theorem chunks_length_le (N : Nat) (hN : 1 ≤ N) :
    ∀ l : List Row, ∀ c ∈ chunks N l, c.length ≤ N
  | [] => by simp [chunks]
  | x :: xs => by
      intro c hc
      rw [chunks, List.mem_cons] at hc
      rcases hc with rfl | hc
      · simp [List.length_take]
        omega
      · exact chunks_length_le N hN (xs.drop (N - 1)) c hc
termination_by l => l.length
decreasing_by
  simp only [List.length_drop, List.length_cons]
  omega

theorem chunks_exact (N : Nat) (hN : 1 ≤ N) :
    ∀ (k : Nat) (l : List Row), l.length = k * N →
      (chunks N l).length = k ∧ ∀ c ∈ chunks N l, c.length = N
  | 0, l => by
      intro hl
      have : l = [] := List.eq_nil_of_length_eq_zero (by omega)
      subst this
      simp [chunks]
  | k + 1, l => by
      intro hl
      match l with
      | [] => simp [Nat.succ_mul] at hl; omega
      | x :: xs =>
          rw [chunks]
          have hxs : xs.length = (k + 1) * N - 1 := by
            simp only [List.length_cons] at hl; omega
          have hlen : (xs.drop (N - 1)).length = k * N := by
            simp only [List.length_drop]
            rw [hxs, Nat.succ_mul]
            omega
          obtain ⟨hcount, hall⟩ := chunks_exact N hN k (xs.drop (N - 1)) hlen
          refine ⟨by simp [hcount], ?_⟩
          intro c hc
          rcases List.mem_cons.mp hc with rfl | hc
          · simp only [List.length_cons, List.length_take]
            have : N - 1 ≤ xs.length := by rw [hxs, Nat.succ_mul]; omega
            omega
          · exact hall c hc

theorem chunks_rem (N : Nat) (hN : 1 ≤ N) :
    ∀ (k r : Nat) (l : List Row), 0 < r → r < N → l.length = k * N + r →
      (chunks N l).length = k + 1 ∧
        (chunks N l).getLast?.map List.length = some r
  | 0, r, l => by
      intro hr hrN hl
      match l with
      | [] => simp at hl; omega
      | x :: xs =>
          rw [chunks]
          have hxs : xs.length = r - 1 := by
            simp only [List.length_cons] at hl; omega
          have htake : xs.take (N - 1) = xs := List.take_of_length_le (by omega)
          have hdrop : xs.drop (N - 1) = [] := List.drop_eq_nil_of_le (by omega)
          rw [htake, hdrop]
          simp [chunks, List.getLast?_singleton]
          omega
  | k + 1, r, l => by
      intro hr hrN hl
      match l with
      | [] => simp at hl; omega
      | x :: xs =>
          rw [chunks]
          have hxs : xs.length = (k + 1) * N + r - 1 := by
            simp only [List.length_cons] at hl; omega
          have hlen : (xs.drop (N - 1)).length = k * N + r := by
            simp only [List.length_drop]
            rw [hxs, Nat.succ_mul]
            omega
          obtain ⟨hcount, hlast⟩ := chunks_rem N hN k r (xs.drop (N - 1)) hr hrN hlen
          refine ⟨by simp [hcount], ?_⟩
          match hrec : chunks N (xs.drop (N - 1)) with
          | [] => rw [hrec] at hcount; simp at hcount
          | c :: cs =>
              rw [hrec] at hlast
              rw [List.getLast?_cons_cons, hlast]

/-! ## Splitter claims -/

/-- C1: for every source CSV file with a header row `hh` and data rows
`data`, and any max row count `N ≥ 1`, the splitter succeeds, every output
file begins with a copy of the header row, and concatenating the data rows
(excluding the header copies) of all output files in file-number order
reproduces the source's data rows exactly, in original order. -/
theorem split_csv_partition (hh : Row) (data : List Row) (N : Nat) (hN : 1 ≤ N) :
    ∃ files, split_csv (hh :: data) N = some files ∧
      (∀ f ∈ files, f.head? = some hh) ∧
      (files.map List.tail).flatten = data := by
  refine ⟨(chunks N data).map (fun c => hh :: c),
    split_csv_eq_chunks hh data N hN, ?_, ?_⟩
  · intro f hf
    obtain ⟨c, _, rfl⟩ := List.mem_map.mp hf
    rfl
  · rw [List.map_map]
    have : (List.tail ∘ fun c => hh :: c) = id := by
      funext c
      rfl
    rw [this, List.map_id, chunks_flatten]

theorem split_csv_partition_witness :
    1 ≤ (2 : Nat) ∧
      ∃ files,
        split_csv [["id", "name"], ["1", "a"], ["2", "b"], ["3", "c"]] 2 = some files ∧
        (∀ f ∈ files, f.head? = some ["id", "name"]) ∧
        (files.map List.tail).flatten = [["1", "a"], ["2", "b"], ["3", "c"]] :=
  ⟨by decide,
    split_csv_partition ["id", "name"] [["1", "a"], ["2", "b"], ["3", "c"]] 2 (by decide)⟩

/-- C2: with `N ≥ 1`, no output file holds more than `N` data rows; a
source with exactly `k * N` data rows (`k ≥ 1`) yields exactly `k` files
of exactly `N` data rows each (no trailing empty file); a source with
`k * N + r` data rows (`0 < r < N`) yields `k + 1` files, the last with
exactly `r` data rows. -/
theorem split_csv_sizes (hh : Row) (data : List Row) (N : Nat) (hN : 1 ≤ N) :
    ∃ files, split_csv (hh :: data) N = some files ∧
      (∀ f ∈ files, f.tail.length ≤ N) ∧
      (∀ k, 1 ≤ k → data.length = k * N →
        files.length = k ∧ ∀ f ∈ files, f.tail.length = N) ∧
      (∀ k r, 0 < r → r < N → data.length = k * N + r →
        files.length = k + 1 ∧
          files.getLast?.map (fun f => f.tail.length) = some r) := by
  refine ⟨(chunks N data).map (fun c => hh :: c),
    split_csv_eq_chunks hh data N hN, ?_, ?_, ?_⟩
  · intro f hf
    obtain ⟨c, hc, rfl⟩ := List.mem_map.mp hf
    simpa using chunks_length_le N hN data c hc
  · intro k hk hlen
    obtain ⟨hcount, hall⟩ := chunks_exact N hN k data hlen
    refine ⟨by simpa using hcount, ?_⟩
    intro f hf
    obtain ⟨c, hc, rfl⟩ := List.mem_map.mp hf
    simpa using hall c hc
  · intro k r hr hrN hlen
    obtain ⟨hcount, hlast⟩ := chunks_rem N hN k r data hr hrN hlen
    refine ⟨by simpa using hcount, ?_⟩
    rw [List.getLast?_map]
    match hrec : (chunks N data).getLast? with
    | none => rw [hrec] at hlast; simp at hlast
    | some c =>
        rw [hrec] at hlast
        simp only [Option.map_some'] at hlast
        simp [hlast]

theorem split_csv_sizes_witness :
    1 ≤ (2 : Nat) ∧
      ∃ files,
        split_csv [["h"], ["1"], ["2"], ["3"], ["4"], ["5"]] 2 = some files ∧
        (∀ f ∈ files, f.tail.length ≤ 2) ∧
        (∀ k, 1 ≤ k → ([["1"], ["2"], ["3"], ["4"], ["5"]] : List Row).length = k * 2 →
          files.length = k ∧ ∀ f ∈ files, f.tail.length = 2) ∧
        (∀ k r, 0 < r → r < 2 →
          ([["1"], ["2"], ["3"], ["4"], ["5"]] : List Row).length = k * 2 + r →
          files.length = k + 1 ∧
            files.getLast?.map (fun f => f.tail.length) = some r) :=
  ⟨by decide, split_csv_sizes ["h"] [["1"], ["2"], ["3"], ["4"], ["5"]] 2 (by decide)⟩

/-- C9: an empty source file has no header row to read (`next(reader)`
raises `StopIteration`), so the splitter fails and produces no output
files. -/
theorem split_csv_empty_source (N : Nat) : split_csv [] N = none := rfl

/-- C10: a source consisting of exactly a header row and zero data rows
makes the splitter complete successfully with no output file at all: the
row loop never runs, so no partition is ever opened. -/
theorem split_csv_header_only (hh : Row) (N : Nat) :
    split_csv [hh] N = some [] := rfl

/-! ## Deduplicator lemmas -/

theorem removeDupLoop_congr :
    ∀ (rows : List Row) (seen seen' : List String),
      (∀ s : String, s ∈ seen ↔ s ∈ seen') →
      removeDupLoop rows seen = removeDupLoop rows seen' := by
  intro rows
  induction rows with
  | nil => intro seen seen' _; rfl
  | cons r rs ih =>
      intro seen seen' hiff
      simp only [removeDupLoop]
      by_cases hs : dedupKey r ∈ seen
      · rw [if_pos hs, if_pos ((hiff _).mp hs), ih _ _ hiff]
      · rw [if_neg hs, if_neg (fun hc => hs ((hiff _).mpr hc))]
        congr 1
        apply ih
        intro s
        simp only [List.mem_cons]
        rw [hiff]

theorem removeDupLoop_keyFilter (k : String) :
    ∀ (rows : List Row) (seen : List String),
      removeDupLoop rows (k :: seen) =
        removeDupLoop (rows.filter fun x => dedupKey x != k) seen := by
  intro rows
  induction rows with
  | nil => intro seen; rfl
  | cons r rs ih =>
      intro seen
      by_cases hk : dedupKey r = k
      · have hfilter : (r :: rs).filter (fun x => dedupKey x != k) =
            rs.filter fun x => dedupKey x != k := by
          simp [List.filter_cons, hk]
        rw [hfilter, ← ih]
        simp only [removeDupLoop]
        rw [if_pos (by simp [hk])]
      · have hfilter : (r :: rs).filter (fun x => dedupKey x != k) =
            r :: rs.filter fun x => dedupKey x != k := by
          simp [List.filter_cons, hk]
        rw [hfilter]
        simp only [removeDupLoop]
        by_cases hs : dedupKey r ∈ seen
        · rw [if_pos (by simp [hs]), if_pos hs, ih]
        · rw [if_neg (by simp [hk, hs]), if_neg hs]
          congr 1
          rw [removeDupLoop_congr rs (dedupKey r :: k :: seen) (k :: dedupKey r :: seen)
            (by intro s; simp only [List.mem_cons]; tauto), ih]

theorem remove_duplicates_eq_spec :
    ∀ rows : List Row, remove_duplicates rows = specFirstOccurrences rows
  | [] => by rw [specFirstOccurrences]; rfl
  | r :: rs => by
      rw [specFirstOccurrences]
      show removeDupLoop (r :: rs) [] = _
      simp only [removeDupLoop]
      rw [if_neg (by simp)]
      congr 1
      rw [removeDupLoop_keyFilter (dedupKey r) rs []]
      exact remove_duplicates_eq_spec (rs.filter fun x => dedupKey x != dedupKey r)
termination_by rows => rows.length
decreasing_by
  simp only [List.length_cons]
  exact Nat.lt_succ_of_le (List.length_filter_le _ _)

theorem removeDupLoop_sublist :
    ∀ (rows : List Row) (seen : List String),
      (removeDupLoop rows seen).Sublist rows := by
  intro rows
  induction rows with
  | nil => intro seen; exact List.Sublist.refl []
  | cons r rs ih =>
      intro seen
      simp only [removeDupLoop]
      by_cases hs : dedupKey r ∈ seen
      · rw [if_pos hs]
        exact List.Sublist.cons r (ih seen)
      · rw [if_neg hs]
        exact List.Sublist.cons₂ r (ih _)

theorem map_dedupKey_filter (k : String) :
    ∀ rs : List Row,
      (rs.filter fun x => dedupKey x != k).map dedupKey =
        (rs.map dedupKey).filter fun s => s != k := by
  intro rs
  induction rs with
  | nil => rfl
  | cons r rest ih =>
      by_cases hk : dedupKey r = k
      · simp [List.filter_cons, hk, ih]
      · simp [List.filter_cons, hk, ih]

theorem toFinset_filter_ne (k : String) (l : List String) :
    ((l.filter fun s => s != k).toFinset : Finset String) = l.toFinset.erase k := by
  ext s
  simp only [List.mem_toFinset, List.mem_filter, Finset.mem_erase, bne_iff_ne, ne_eq]
  tauto

theorem specFirstOccurrences_length :
    ∀ rows : List Row,
      (specFirstOccurrences rows).length = (rows.map dedupKey).toFinset.card
  | [] => by rw [specFirstOccurrences]; rfl
  | r :: rs => by
      rw [specFirstOccurrences]
      rw [List.length_cons,
        specFirstOccurrences_length (rs.filter fun x => dedupKey x != dedupKey r)]
      rw [map_dedupKey_filter, toFinset_filter_ne]
      rw [List.map_cons, List.toFinset_cons]
      by_cases hmem : dedupKey r ∈ (rs.map dedupKey).toFinset
      · rw [Finset.card_insert_of_mem hmem, ← Finset.card_erase_add_one hmem]
      · rw [Finset.card_insert_of_not_mem hmem, Finset.erase_eq_of_not_mem hmem]
termination_by rows => rows.length
decreasing_by
  simp only [List.length_cons]
  exact Nat.lt_succ_of_le (List.length_filter_le _ _)

/-! ## Deduplicator claims -/

/-- C3: the deduplicator's output is the subsequence of rows that are the
first occurrence of their canonical text key (fields rejoined with the
delimiter): it equals the spec-side first-occurrence filter, it is a
subsequence of the input (relative order preserved, only textual repeats
dropped), and its row count is the number of distinct canonical-text
rows. -/
theorem remove_duplicates_first_occurrences (rows : List Row) :
    remove_duplicates rows = specFirstOccurrences rows ∧
      (remove_duplicates rows).Sublist rows ∧
      (remove_duplicates rows).length = (rows.map dedupKey).toFinset.card := by
  refine ⟨remove_duplicates_eq_spec rows, removeDupLoop_sublist rows [], ?_⟩
  rw [remove_duplicates_eq_spec rows, specFirstOccurrences_length rows]

theorem removeDupLoop_keys_fresh :
    ∀ (rows : List Row) (seen : List String),
      ((removeDupLoop rows seen).map dedupKey).Nodup ∧
        ∀ r ∈ removeDupLoop rows seen, dedupKey r ∉ seen := by
  intro rows
  induction rows with
  | nil => intro seen; simp [removeDupLoop]
  | cons r rs ih =>
      intro seen
      simp only [removeDupLoop]
      by_cases hs : dedupKey r ∈ seen
      · rw [if_pos hs]
        exact ih seen
      · rw [if_neg hs]
        obtain ⟨hnodup, hfresh⟩ := ih (dedupKey r :: seen)
        refine ⟨?_, ?_⟩
        · rw [List.map_cons, List.nodup_cons]
          refine ⟨?_, hnodup⟩
          intro hc
          obtain ⟨x, hx, hkey⟩ := List.mem_map.mp hc
          exact (hfresh x hx) (by rw [hkey]; exact List.mem_cons_self _ _)
        · intro y hy
          rcases List.mem_cons.mp hy with rfl | hy
          · exact hs
          · intro hc
            exact (hfresh y hy) (List.mem_cons_of_mem _ hc)

theorem removeDupLoop_of_fresh :
    ∀ (rows : List Row) (seen : List String),
      (rows.map dedupKey).Nodup → (∀ r ∈ rows, dedupKey r ∉ seen) →
      removeDupLoop rows seen = rows := by
  intro rows
  induction rows with
  | nil => intro seen _ _; rfl
  | cons r rs ih =>
      intro seen hnodup hfresh
      simp only [removeDupLoop]
      rw [if_neg (hfresh r (List.mem_cons_self _ _))]
      congr 1
      rw [List.map_cons, List.nodup_cons] at hnodup
      apply ih (dedupKey r :: seen) hnodup.2
      intro y hy
      intro hc
      rcases List.mem_cons.mp hc with heq | hc
      · exact hnodup.1 (heq ▸ List.mem_map_of_mem dedupKey hy)
      · exact hfresh y (List.mem_cons_of_mem _ hy) hc

/-- C4: the deduplicator is idempotent: running it again on its own output
reproduces that output unchanged. -/
theorem remove_duplicates_idempotent (rows : List Row) :
    remove_duplicates (remove_duplicates rows) = remove_duplicates rows := by
  apply removeDupLoop_of_fresh
  · exact (removeDupLoop_keys_fresh rows []).1
  · intro r _
    exact List.not_mem_nil _

/-- C7: two semantically different rows, `["a,b", "c"]` and `["a", "b,c"]`
(the delimiter appears inside a field value), rejoin to the same canonical
key `"a,b,c"`, so the deduplicator drops the second as a false-positive
duplicate of the first. -/
theorem remove_duplicates_key_collision :
    (["a,b", "c"] : Row) ≠ ["a", "b,c"] ∧
      dedupKey ["a,b", "c"] = dedupKey ["a", "b,c"] ∧
      remove_duplicates [["a,b", "c"], ["a", "b,c"]] = [["a,b", "c"]] := by
  refine ⟨by decide, by decide, by decide⟩

/-! ## Atomic-replace claim (C6) -/

theorem runOps_writes_orig (ws : List Row) :
    ∀ fs : Fs, (runOps fs (ws.map FsOp.writeTemp)).orig = fs.orig := by
  induction ws with
  | nil => intro fs; rfl
  | cons w ws ih => intro fs; exact ih _

theorem runOps_writes_temp (ws : List Row) :
    ∀ fs : Fs, (runOps fs (ws.map FsOp.writeTemp)).temp = fs.temp ++ ws := by
  induction ws with
  | nil => intro fs; simp [runOps]
  | cons w ws ih =>
      intro fs
      rw [List.map_cons]
      show (runOps (applyOp fs (FsOp.writeTemp w)) (ws.map FsOp.writeTemp)).temp = _
      rw [ih]
      simp [applyOp]

/-- C6: the deduplicator writes all of its output to the temporary path
strictly before the single atomic `os.replace`: executing any proper
prefix of its effect trace (an interruption before the final replace)
leaves the original file's content unchanged, while the full trace ends
with the original path holding exactly the deduplicated rows. -/
theorem remove_duplicates_atomic (rows init : List Row) (k : Nat)
    (hk : k < (dedupTrace rows).length) :
    (runOps ⟨init, []⟩ ((dedupTrace rows).take k)).orig = init ∧
      (runOps ⟨init, []⟩ (dedupTrace rows)).orig = remove_duplicates rows := by
  constructor
  · have hlen : k ≤ ((remove_duplicates rows).map FsOp.writeTemp).length := by
      simp only [dedupTrace, List.length_append, List.length_map,
        List.length_cons, List.length_nil] at hk ⊢
      omega
    rw [dedupTrace, List.take_append_eq_append_take,
      Nat.sub_eq_zero_of_le hlen, List.take_zero, List.append_nil,
      ← List.map_take, runOps_writes_orig]
  · rw [dedupTrace, runOps, List.foldl_append]
    show (applyOp (runOps ⟨init, []⟩ ((remove_duplicates rows).map FsOp.writeTemp))
      FsOp.replaceOrig).orig = _
    simp [applyOp, runOps_writes_temp]

theorem remove_duplicates_atomic_witness :
    2 < (dedupTrace [["a"], ["a"], ["b"]]).length ∧
      ((runOps ⟨[["a"], ["a"], ["b"]], []⟩ ((dedupTrace [["a"], ["a"], ["b"]]).take 2)).orig =
          [["a"], ["a"], ["b"]] ∧
        (runOps ⟨[["a"], ["a"], ["b"]], []⟩ (dedupTrace [["a"], ["a"], ["b"]])).orig =
          remove_duplicates [["a"], ["a"], ["b"]]) :=
  ⟨by decide, remove_duplicates_atomic [["a"], ["a"], ["b"]] [["a"], ["a"], ["b"]] 2 (by decide)⟩

/-! ## Searcher lemmas -/

theorem lookupLast_mkRecordAux_eq_none (row : List String) (key : String) :
    ∀ (hs : List String) (i : Nat),
      lookupLast (mkRecordAux row i hs) key = none ↔ key ∉ hs := by
  intro hs
  induction hs with
  | nil => intro i; simp [mkRecordAux, lookupLast]
  | cons h hs ih =>
      intro i
      simp only [mkRecordAux, lookupLast]
      cases hrec : lookupLast (mkRecordAux row (i + 1) hs) key with
      | some w =>
          have hmem : key ∈ hs := by
            by_contra hc
            rw [(ih (i + 1)).mpr hc] at hrec
            exact Option.noConfusion hrec
          simp [hmem]
      | none =>
          by_cases hh : h = key
          · simp [hh]
          · have hne : key ≠ h := fun hc => hh hc.symm
            have hrest := (ih (i + 1)).mp hrec
            simp [hh, hne, hrest]

theorem lookupLast_mkRecord_eq_none (headers row : List String) (key : String) :
    lookupLast (mkRecord headers row) key = none ↔ key ∉ headers :=
  lookupLast_mkRecordAux_eq_none row key headers 0

theorem lookupLast_mkRecordAux_nil (key : String) :
    ∀ (hs : List String) (i : Nat), key ∈ hs →
      lookupLast (mkRecordAux [] i hs) key = some none := by
  intro hs
  induction hs with
  | nil => intro i h; cases h
  | cons h hs ih =>
      intro i hkey
      simp only [mkRecordAux, lookupLast]
      by_cases hmem : key ∈ hs
      · rw [ih (i + 1) hmem]
      · rw [(lookupLast_mkRecordAux_eq_none [] key hs (i + 1)).mpr hmem]
        have hh : h = key := by
          rcases List.mem_cons.mp hkey with rfl | hc
          · rfl
          · exact absurd hc hmem
        rw [if_pos hh]
        rfl

theorem searchFileRows_of_mem (target : String) (headers : List String)
    (hmem : "postal_code" ∈ headers) :
    ∀ dataRows : List Row,
      searchFileRows target headers dataRows =
        some ((dataRows.map (mkRecord headers)).filter
          fun r => lookupLast r "postal_code" == some (some target)) := by
  intro dataRows
  induction dataRows with
  | nil => rfl
  | cons row rest ih =>
      simp only [searchFileRows]
      by_cases hblank : row = []
      · rw [if_pos hblank, ih, hblank]
        simp only [List.map_cons, List.filter_cons]
        rw [show mkRecord headers [] = mkRecordAux [] 0 headers from rfl,
          lookupLast_mkRecordAux_nil "postal_code" headers 0 hmem]
        simp
      · rw [if_neg hblank]
        cases hlook : lookupLast (mkRecord headers row) "postal_code" with
        | none =>
            exact absurd ((lookupLast_mkRecord_eq_none headers row _).mp hlook)
              (by simp [hmem])
        | some v =>
            rw [ih]
            simp only [List.map_cons, List.filter_cons, hlook]
            by_cases hv : v = some target
            · simp [hv]
            · simp [hv]

theorem searchFile_of_mem (target : String) (content : List Row)
    (hcol : ∀ headers rest, content = headers :: rest → "postal_code" ∈ headers) :
    searchFile target content = some (matchingRecords target content) := by
  match content with
  | [] => rfl
  | headers :: dataRows =>
      show searchFileRows target headers dataRows = _
      rw [searchFileRows_of_mem target headers (hcol headers dataRows rfl) dataRows]
      rfl

/-! ## Searcher claims -/

/-- C5: when every `.csv` file in the directory has a `postal_code`
column in its header row, the searcher returns exactly the records across
all those files whose `postal_code` field equals the target string by
exact, case-sensitive comparison, in file-listing order and then in-file
row order; an empty directory, or no matches, yields the empty result. -/
theorem search_csv_files_correct (files : List (String × List Row)) (target : String)
    (hcol : ∀ p ∈ files, strEndsWith p.1 ".csv" = true →
      ∀ headers ∈ p.2.head?, "postal_code" ∈ headers) :
    search_csv_files files target =
      some (((files.filter fun p => strEndsWith p.1 ".csv").map
        fun p => matchingRecords target p.2).flatten) := by
  induction files with
  | nil => rfl
  | cons p rest ih =>
      obtain ⟨name, content⟩ := p
      have hrest : ∀ q ∈ rest, strEndsWith q.1 ".csv" = true →
          ∀ headers ∈ q.2.head?, "postal_code" ∈ headers :=
        fun q hq => hcol q (List.mem_cons_of_mem _ hq)
      simp only [search_csv_files]
      by_cases hcsv : strEndsWith name ".csv" = true
      · rw [if_pos hcsv]
        have hc : ∀ headers tl, content = headers :: tl → "postal_code" ∈ headers := by
          intro headers tl heq
          have hhead := hcol (name, content) (List.mem_cons_self _ _) hcsv headers
          rw [heq] at hhead
          exact hhead rfl
        rw [searchFile_of_mem target content hc]
        rw [ih hrest]
        rw [List.filter_cons_of_pos (by exact hcsv), List.map_cons, List.flatten_cons]
      · rw [if_neg hcsv, ih hrest, List.filter_cons_of_neg (by exact hcsv)]

theorem search_csv_files_correct_witness :
    (∀ p ∈ [(("a.csv" : String), ([["postal_code", "city"], ["6369CW", "X"], ["6369cw", "Y"]] : List Row)),
        (("b.txt" : String), ([["postal_code"], ["6369CW"]] : List Row)),
        (("c.csv" : String), ([["postal_code"], ["6369CW"]] : List Row))],
      strEndsWith p.1 ".csv" = true →
      ∀ headers ∈ p.2.head?, "postal_code" ∈ headers) ∧
      search_csv_files
        [("a.csv", [["postal_code", "city"], ["6369CW", "X"], ["6369cw", "Y"]]),
          ("b.txt", [["postal_code"], ["6369CW"]]),
          ("c.csv", [["postal_code"], ["6369CW"]])] "6369CW" =
        some ((([(("a.csv" : String), ([["postal_code", "city"], ["6369CW", "X"], ["6369cw", "Y"]] : List Row)),
            (("b.txt" : String), ([["postal_code"], ["6369CW"]] : List Row)),
            (("c.csv" : String), ([["postal_code"], ["6369CW"]] : List Row))].filter
              fun p => strEndsWith p.1 ".csv").map
          fun p => matchingRecords "6369CW" p.2).flatten) :=
  ⟨by decide, search_csv_files_correct
    [("a.csv", [["postal_code", "city"], ["6369CW", "X"], ["6369cw", "Y"]]),
      ("b.txt", [["postal_code"], ["6369CW"]]),
      ("c.csv", [["postal_code"], ["6369CW"]])] "6369CW" (by decide)⟩

/-- C8 (counterexample to the claim as stated): a directory containing a
`.csv` file that lacks a `postal_code` column but has no data row: the
inner loop never looks the key up, so the searcher completes and returns
an (empty) result instead of failing. -/
theorem search_missing_column_counterexample :
    ("postal_code" ∉ (["city"] : List String)) ∧
      search_csv_files [("a.csv", [["city"]])] "6369CW" = some [] :=
  ⟨by decide, by decide⟩

theorem searchFileRows_missing_key (target : String) (headers : List String)
    (hmiss : "postal_code" ∉ headers) :
    ∀ (dataRows : List Row) (row : Row), row ∈ dataRows → row ≠ [] →
      searchFileRows target headers dataRows = none := by
  intro dataRows
  induction dataRows with
  | nil => intro row h; cases h
  | cons r rs ih =>
      intro row hrow hblank
      simp only [searchFileRows]
      by_cases hr : r = []
      · rw [if_pos hr]
        rcases List.mem_cons.mp hrow with rfl | hmem
        · exact absurd hr hblank
        · exact ih row hmem hblank
      · rw [if_neg hr,
          (lookupLast_mkRecord_eq_none headers r "postal_code").mpr hmiss]

/-- C8 (amended): for every directory containing a `.csv` file that lacks
a `postal_code` column and has at least one non-blank data row
(`csv.DictReader` skips blank rows before looking any key up), the
searcher fails with a missing-key error rather than returning a result. -/
theorem search_missing_column (files : List (String × List Row)) (target : String)
    (name : String) (headers : Row) (dataRows : List Row) (row : Row)
    (hp : (name, headers :: dataRows) ∈ files)
    (hcsv : strEndsWith name ".csv" = true)
    (hrow : row ∈ dataRows) (hblank : row ≠ [])
    (hmiss : "postal_code" ∉ headers) :
    search_csv_files files target = none := by
  induction files with
  | nil => cases hp
  | cons q qs ih =>
      obtain ⟨qname, qcontent⟩ := q
      simp only [search_csv_files]
      rcases List.mem_cons.mp hp with heq | hmem
      · injection heq with h1 h2
        subst h1
        subst h2
        rw [if_pos hcsv]
        have hnone : searchFile target (headers :: dataRows) = none := by
          show searchFileRows target headers dataRows = none
          exact searchFileRows_missing_key target headers hmiss dataRows row hrow hblank
        rw [hnone]
      · by_cases hcsv2 : strEndsWith qname ".csv" = true
        · rw [if_pos hcsv2]
          cases hfile : searchFile target qcontent with
          | none => rfl
          | some rs => rw [ih hmem]
        · rw [if_neg hcsv2]
          exact ih hmem

theorem search_missing_column_witness :
    ((("b.csv" : String), ([["city"], [], ["x"]] : List Row)) ∈
        [(("b.csv" : String), ([["city"], [], ["x"]] : List Row))]) ∧
      strEndsWith "b.csv" ".csv" = true ∧
      (["x"] ∈ ([[], ["x"]] : List Row)) ∧
      (["x"] : Row) ≠ [] ∧
      ("postal_code" ∉ (["city"] : List String)) ∧
      search_csv_files [("b.csv", [["city"], [], ["x"]])] "6369CW" = none :=
  ⟨by decide, by decide, by decide, by decide, by decide,
    search_missing_column [("b.csv", [["city"], [], ["x"]])] "6369CW" "b.csv"
      ["city"] [[], ["x"]] ["x"] (by decide) (by decide) (by decide) (by decide) (by decide)⟩
